import Mathlib

/-!
Verification of the matching/ranking engine, synthesis pipeline,
deterministic seed derivation and metrics extraction of the ET repository.

The definitions below are a shallow embedding of `src/scoring.py`,
`src/app.py` (`_history_bonus`, `_synthesize_recommendations`) and
`src/generation.py` (`_normalize_part`, `_stable_seed`, the seed
expressions of the three narrative generators, `_extract_metrics`).
Python numbers are modelled as rationals, Python strings as `String`,
Python sets as deduplicated lists (only cardinalities, memberships and
sorted renderings of sets are ever consumed, so list order is irrelevant).
-/

set_option maxHeartbeats 1000000
set_option maxRecDepth 10000
set_option linter.unusedVariables false

namespace ET

/-- The stopword set defined identically in `src/scoring.py` and
`src/generation.py`. -/
def STOPWORDS : List String :=
  ["the", "and", "or", "to", "for", "with", "a", "an", "of", "in", "on", "by",
   "is", "are", "from", "that", "this", "we", "our", "their", "they", "as",
   "at", "be", "it", "into", "across", "within", "around", "over", "need",
   "looking", "seeking"]

/-- A character matched by the regex class `[a-zA-Z0-9]`. -/
def isWordChar (c : Char) : Bool := c.isAlpha || c.isDigit

/-- Maximal runs of `[a-zA-Z0-9]` characters, i.e.
`re.findall(r"[a-zA-Z0-9]+", text)`.  `acc` is the current run, reversed. -/
def alnumRunsAux (acc : List Char) : List Char → List (List Char)
  | [] => if acc = [] then [] else [acc.reverse]
  | c :: cs =>
    if isWordChar c then alnumRunsAux (c :: acc) cs
    else if acc = [] then alnumRunsAux [] cs
    else acc.reverse :: alnumRunsAux [] cs

def alnumRuns (l : List Char) : List (List Char) := alnumRunsAux [] l

/-- Python `str.lower()` (ASCII case mapping; all inputs here are ASCII). -/
def lowerStr (s : String) : String := String.mk (s.data.map Char.toLower)

/-- Models `_tokenize` from `src/scoring.py` (an identical copy lives in
`src/generation.py`): lower-case, split into alphanumeric runs, drop
stopwords and tokens of length ≤ 2. -/
def tokenize (text : String) : List String :=
  if text = "" then []
  else
    ((alnumRuns (lowerStr text).data).map (fun cs => String.mk cs)).filter
      (fun t => !(STOPWORDS.contains t) && decide (2 < t.length))

/-- Python `sep.join(parts)`. -/
def pyJoin (sep : String) : List String → String
  | [] => ""
  | [x] => x
  | x :: xs => x ++ sep ++ pyJoin sep xs

/-- Lexicographic comparison of char lists by code point, matching Python
string comparison. -/
def charsLe : List Char → List Char → Bool
  | [], _ => true
  | _ :: _, [] => false
  | a :: as, b :: bs =>
    if a.toNat < b.toNat then true
    else if b.toNat < a.toNat then false
    else charsLe as bs

def strLe (a b : String) : Bool := charsLe a.data b.data

/-- Insertion step of a stable insertion sort. -/
def insertBy (le : α → α → Bool) (x : α) : List α → List α
  | [] => [x]
  | y :: ys => if le x y then x :: y :: ys else y :: insertBy le x ys

/-- Stable insertion sort (used to model the stable Python `sorted`). -/
def isort (le : α → α → Bool) : List α → List α
  | [] => []
  | x :: xs => insertBy le x (isort le xs)

/-- Python `sorted` on a list of strings. -/
def sortedStrings (l : List String) : List String := isort strLe l

/-- Models `expert["credentials"]` in `src/scoring.py`; a field whose Python value
is a single string is modelled as a one-element list (both flatten to the
same text). -/
structure Credentials where
  education : List String := []
  formerCompanies : List String := []
  notableProjects : List String := []
  publications : List String := []
deriving DecidableEq, Repr

/-- The candidate (expert) fields read by the scoring and synthesis code. -/
structure Expert where
  id : String := ""
  name : String := ""
  industryTags : List String := []
  functionTags : List String := []
  roleLevel : String := ""
  ratePerHour : ℚ := 0
  expertiseSummary : String := ""
  topicKeywords : List String := []
  credentials : Credentials := {}
deriving DecidableEq, Repr

/-- The request (criteria) fields read by the scoring code.  A missing or
`None` Python value is `none` / the empty default. -/
structure Criteria where
  industries : List String := []
  functions : List String := []
  levels : List String := []
  budget : Option ℚ := none
  free_text : String := ""
  profile_text : String := ""
deriving DecidableEq, Repr

/-- Models `_flatten_credentials` from `src/scoring.py`: join the four credential
fields with spaces and lower-case the result. -/
def flatten_credentials (e : Expert) : String :=
  lowerStr (pyJoin " "
    (e.credentials.education ++ e.credentials.formerCompanies ++
     e.credentials.notableProjects ++ e.credentials.publications))

/-- Round to nearest integer, ties to even: the Python builtin `round`. -/
def roundHalfEven (x : ℚ) : ℤ :=
  let f := ⌊x⌋
  let r := x - (f : ℚ)
  if r < 1 / 2 then f
  else if 1 / 2 < r then f + 1
  else if f % 2 = 0 then f else f + 1

/-- Python `round(x, 1)`. -/
def round1 (x : ℚ) : ℚ := (roundHalfEven (10 * x) : ℚ) / 10

/-- Models `budget = criteria.get("budget") or 500` — a missing, `None` or `0`
budget falls back to 500. -/
def effectiveBudget (c : Criteria) : ℚ :=
  match c.budget with
  | none => 500
  | some b => if b = 0 then 500 else b

/-- Substring occurrence on char lists: `n` occurs contiguously in the hay. -/
def occursIn (n : List Char) : List Char → Bool
  | [] => n.isEmpty
  | c :: cs => n.isPrefixOf (c :: cs) || occursIn n cs

/-- Python `t in s` (substring containment). -/
def isSubstr (needle hay : String) : Bool := occursIn needle.data hay.data

/-! `score_expert` adds each signal to a running total and never reads the
total back, so the final pre-clamp score is the sum of the per-signal
contributions below; each definition mirrors its block of
`src/scoring.py` lines 60-127. -/

/-- Models `overlap = industries.intersection(expert.get("industryTags", []))`. -/
def industry_overlap (c : Criteria) (e : Expert) : List String :=
  c.industries.dedup.filter (fun t => e.industryTags.contains t)

/-- Industry block: partial credit capped at 25, flat −12 on mismatch. -/
def industry_part (c : Criteria) (e : Expert) : ℚ :=
  if c.industries.dedup ≠ [] then
    min 25 (25 * (((industry_overlap c e).length : ℚ) /
      ((max 1 c.industries.dedup.length : ℕ) : ℚ))) +
      (if industry_overlap c e = [] then -12 else 0)
  else 0

def function_overlap (c : Criteria) (e : Expert) : List String :=
  c.functions.dedup.filter (fun t => e.functionTags.contains t)

/-- Function block: partial credit capped at 25, no mismatch penalty. -/
def function_part (c : Criteria) (e : Expert) : ℚ :=
  if c.functions.dedup ≠ [] then
    min 25 (25 * (((function_overlap c e).length : ℚ) /
      ((max 1 c.functions.dedup.length : ℕ) : ℚ)))
  else 0

/-- Level block: flat +10 when the role level of the expert is requested. -/
def level_part (c : Criteria) (e : Expert) : ℚ :=
  if c.levels.dedup ≠ [] then
    if c.levels.dedup.contains e.roleLevel then 10 else 0
  else 0

/-- Models `free_tokens = set(_tokenize(free_text))`. -/
def free_tokens (c : Criteria) : List String := (tokenize c.free_text).dedup

/-- Models `expert_tokens`: summary tokens unioned with lower-cased topic keywords. -/
def expert_tokens (e : Expert) : List String :=
  (tokenize e.expertiseSummary ++ e.topicKeywords.map lowerStr).dedup

def keyword_overlap (c : Criteria) (e : Expert) : List String :=
  (free_tokens c).filter (fun t => (expert_tokens e).contains t)

/-- Keyword block: partial credit capped at 30. -/
def keyword_part (c : Criteria) (e : Expert) : ℚ :=
  if free_tokens c ≠ [] then
    min 30 (30 * (((keyword_overlap c e).length : ℚ) /
      ((max 1 (free_tokens c).length : ℕ) : ℚ)))
  else 0

/-- Models `cred_hits = [t for t in free_tokens if t in cred_text]` — note the
Python `in` here is a plain substring test on the flattened blob. -/
def cred_hits (c : Criteria) (e : Expert) : List String :=
  (free_tokens c).filter (fun t => isSubstr t (flatten_credentials e))

/-- Credential block: flat +10 when any free-text token occurs in the blob. -/
def cred_part (c : Criteria) (e : Expert) : ℚ :=
  if cred_hits c e ≠ [] then 10 else 0

def profile_tokens (c : Criteria) : List String := (tokenize c.profile_text).dedup

def profile_overlap (c : Criteria) (e : Expert) : List String :=
  (profile_tokens c).filter (fun t => (expert_tokens e).contains t)

/-- Profile block: partial credit capped at 10. -/
def profile_part (c : Criteria) (e : Expert) : ℚ :=
  if profile_tokens c ≠ [] then
    min 10 (10 * (((profile_overlap c e).length : ℚ) /
      ((max 1 (profile_tokens c).length : ℕ) : ℚ)))
  else 0

/-- Rate block: `10 * min(1, (rate - budget) / max(1, budget))` subtracted
when the rate exceeds the (effective) budget. -/
def rate_penalty (c : Criteria) (e : Expert) : ℚ :=
  let budget := effectiveBudget c
  if e.ratePerHour > budget then
    10 * min 1 ((e.ratePerHour - budget) / max 1 budget)
  else 0

/-- The running total of `score_expert` just before the final clamp/round. -/
def score_expert_raw (c : Criteria) (e : Expert) : ℚ :=
  industry_part c e + function_part c e + level_part c e + keyword_part c e +
    cred_part c e + profile_part c e - rate_penalty c e

/-- The reason strings, appended in the block order of the source. -/
def score_expert_reasons (c : Criteria) (e : Expert) : List String :=
  (if c.industries.dedup ≠ [] then
    if industry_overlap c e ≠ [] then
      ["Industry match: " ++ pyJoin ", " (sortedStrings (industry_overlap c e)) ++ "."]
    else ["Industry mismatch: no overlap with requested industries."]
   else []) ++
  (if c.functions.dedup ≠ [] then
    if function_overlap c e ≠ [] then
      ["Function match: " ++ pyJoin ", " (sortedStrings (function_overlap c e)) ++ "."]
    else []
   else []) ++
  (if c.levels.dedup ≠ [] then
    if c.levels.dedup.contains e.roleLevel then
      ["Role level match: " ++ e.roleLevel ++ "."]
    else []
   else []) ++
  (if free_tokens c ≠ [] ∧ keyword_overlap c e ≠ [] then
    ["Keyword overlap: " ++ pyJoin ", " ((sortedStrings (keyword_overlap c e)).take 6) ++ "."]
   else []) ++
  (if cred_hits c e ≠ [] then
    ["Credential signal: " ++ pyJoin ", " ((sortedStrings (cred_hits c e).dedup).take 5) ++ "."]
   else []) ++
  (if profile_tokens c ≠ [] ∧ profile_overlap c e ≠ [] then
    ["Profile match: " ++ pyJoin ", " ((sortedStrings (profile_overlap c e)).take 6) ++ "."]
   else []) ++
  (if e.ratePerHour > effectiveBudget c then
    ["Rate above budget; slight penalty applied."]
   else [])

/-- Models `score_expert` from `src/scoring.py`: clamp the rounded total into
[0, 100] and return it with the reasons. -/
def score_expert (c : Criteria) (e : Expert) : ℚ × List String :=
  (max 0 (min 100 (round1 (score_expert_raw c e))), score_expert_reasons c e)

/-! ### Ranking (`rank_experts`) and synthesis (`_synthesize_recommendations`) -/

/-- One entry of a ranked list: `{"expert": .., "score": .., "match_reasons": ..}`. -/
structure RankEntry where
  expert : Expert
  score : ℚ
  match_reasons : List String
deriving DecidableEq, Repr

/-- The dict built for one expert in the `rank_experts` loop. -/
def score_entry (c : Criteria) (e : Expert) : RankEntry :=
  { expert := e, score := (score_expert c e).1, match_reasons := (score_expert c e).2 }

/-- Insertion step of a stable descending-by-score sort.  `x` is placed
before the first element scoring no more than `x`, so earlier
input elements stay first on ties — the behaviour of the stable Python
`list.sort(key=score, reverse=True)`. -/
def insertDesc (x : RankEntry) : List RankEntry → List RankEntry
  | [] => [x]
  | y :: ys => if y.score ≤ x.score then x :: y :: ys else y :: insertDesc x ys

/-- Stable descending sort by score (`ranked.sort(key=..., reverse=True)`). -/
def sortDesc : List RankEntry → List RankEntry
  | [] => []
  | x :: xs => insertDesc x (sortDesc xs)

/-- Models `rank_experts` from `src/scoring.py`. -/
def rank_experts (c : Criteria) (experts : List Expert) : List RankEntry :=
  sortDesc (experts.map (score_entry c))

/-- One recommendation inside an agency response; a Python `None` id is
modelled as the (equally falsy) empty string. -/
structure AgencyRec where
  id : String := ""
  fit_reason : String := ""
deriving DecidableEq, Repr

structure AgencyResponse where
  agency_name : String := ""
  recommended_experts : List AgencyRec := []
deriving DecidableEq, Repr

/-- Models `item["tags"]` of one record of the recent interview history. -/
structure HistoryTags where
  industries : List String := []
  functions : List String := []
  topics : List String := []
deriving DecidableEq, Repr

/-- Models `agency_mentions.get(id, 0)` of `_synthesize_recommendations`
(`src/app.py` lines 611-620): recommendations with falsy ids are skipped. -/
def agency_mentions (agencies : List AgencyResponse) (id : String) : ℕ :=
  ((agencies.map (fun a =>
    a.recommended_experts.filter (fun r => !(r.id == "") && r.id == id))).flatten).length

/-- Models `agency_reasons.get(id, [])`: one `"<agency>: <fit reason>"` line per
mention, in response order. -/
def agency_reasons (agencies : List AgencyResponse) (id : String) : List String :=
  (agencies.map (fun a =>
    (a.recommended_experts.filter (fun r => !(r.id == "") && r.id == id)).map
      (fun r => a.agency_name ++ ": " ++ r.fit_reason))).flatten

/-- Models `_history_bonus` from `src/app.py` lines 595-607. -/
def history_bonus (e : Expert) (recent : List HistoryTags) : ℕ :=
  if recent = [] then 0
  else
    min 10 (recent.foldl (fun bonus item =>
      bonus + 2 * (e.industryTags.dedup.filter (fun t => item.industries.contains t)).length
            + 2 * (e.functionTags.dedup.filter (fun t => item.functions.contains t)).length
            + ((e.topicKeywords.map lowerStr).dedup.filter
                (fun t => (item.topics.map lowerStr).contains t)).length) 0)

/-- Models `base_scores.get(expert["id"], 0)`: the dict comprehension over `ranked`
keeps the last entry for a duplicated id, hence the reversed lookup. -/
def base_score (ranked : List RankEntry) (id : String) : ℚ :=
  match ranked.reverse.find? (fun r => r.expert.id == id) with
  | some r => r.score
  | none => 0

/-- The compiled entry for one expert in `_synthesize_recommendations`
(`src/app.py` lines 622-641). -/
def compile_entry (ranked : List RankEntry) (agencies : List AgencyResponse)
    (recent : List HistoryTags) (e : Expert) : RankEntry :=
  let base := base_score ranked e.id
  let agency_bonus : ℕ := min 15 (5 * agency_mentions agencies e.id)
  let hist_bonus : ℕ := history_bonus e recent
  let final_score := max 0 (min 100 (round1 (base + (agency_bonus : ℚ) + (hist_bonus : ℚ))))
  let reasons :=
    (if agency_bonus ≠ 0 then
      ("Agency recommendations: " ++ toString (agency_mentions agencies e.id)) ::
        agency_reasons agencies e.id
     else []) ++
    (if hist_bonus ≠ 0 then ["Aligned with past interview history tags."] else [])
  { expert := e, score := final_score,
    match_reasons := if reasons = [] then ["Matches core criteria."] else reasons }

/-- Models `_synthesize_recommendations` from `src/app.py` lines 610-643 (the
`criteria` parameter is accepted and unused, as in the source). -/
def synthesize_recommendations (criteria : Criteria) (experts : List Expert)
    (ranked : List RankEntry) (agencies : List AgencyResponse)
    (recent : List HistoryTags) : List RankEntry :=
  sortDesc (experts.map (compile_entry ranked agencies recent))

/-! ### Seed derivation (`src/generation.py` lines 52-64 and the seed
expressions of the three narrative generators) -/

mutual

/-- A Python value as passed to `_stable_seed` / `json.dumps`.  Lists and
dicts carry their own spine so that all recursion below is structural. -/
inductive PyVal where
  | str (s : String)
  | int (n : Int)
  | bool (b : Bool)
  | null
  | list (xs : PyListV)
  | dict (entries : PyDictV)

inductive PyListV where
  | nil
  | cons (hd : PyVal) (tl : PyListV)

inductive PyDictV where
  | nil
  | cons (key : String) (val : PyVal) (tl : PyDictV)

end

/-- Build a `PyVal.list` from a Lean list. -/
def pyList (xs : List PyVal) : PyVal := .list (xs.foldr .cons .nil)

def pairsToDict (kvs : List (String × PyVal)) : PyDictV :=
  kvs.foldr (fun kv tl => .cons kv.1 kv.2 tl) .nil

/-- Build a `PyVal.dict` from a Lean association list. -/
def pyDict (kvs : List (String × PyVal)) : PyVal := .dict (pairsToDict kvs)

def PyDictV.toPairs : PyDictV → List (String × PyVal)
  | .nil => []
  | .cons k v tl => (k, v) :: tl.toPairs

def hexDigit (n : ℕ) : Char :=
  if n < 10 then Char.ofNat (48 + n) else Char.ofNat (87 + n)

def hex4 (n : ℕ) : List Char :=
  [hexDigit (n / 4096 % 16), hexDigit (n / 256 % 16), hexDigit (n / 16 % 16),
   hexDigit (n % 16)]

/-- Models `json.dumps` escaping of one character (default `ensure_ascii=True`). -/
def jsonEscapeChar (c : Char) : List Char :=
  if c = '"' then ['\\', '"']
  else if c = '\\' then ['\\', '\\']
  else if c = '\n' then ['\\', 'n']
  else if c = '\t' then ['\\', 't']
  else if c = '\r' then ['\\', 'r']
  else if c.toNat = 8 then ['\\', 'b']
  else if c.toNat = 12 then ['\\', 'f']
  else if c.toNat < 32 then '\\' :: 'u' :: hex4 c.toNat
  else if c.toNat < 128 then [c]
  else if c.toNat < 65536 then '\\' :: 'u' :: hex4 c.toNat
  else
    let v := c.toNat - 65536
    ('\\' :: 'u' :: hex4 (55296 + v / 1024)) ++ ('\\' :: 'u' :: hex4 (56320 + v % 1024))

/-- A JSON string literal. -/
def jsonStr (s : String) : List Char := '"' :: (s.data.map jsonEscapeChar).flatten ++ ['"']

/-- Key order used by `json.dumps(..., sort_keys=True)` (Python compares
the key strings by code point; dict keys are unique so values are never
compared). -/
def pairLe (x y : String × PyVal) : Bool := charsLe x.1.data y.1.data

def sortPairs (l : List (String × PyVal)) : List (String × PyVal) := isort pairLe l

/-- Sort the dict entries by key, as `sort_keys=True` does at each level. -/
def sortDict (d : PyDictV) : PyDictV := pairsToDict (sortPairs d.toPairs)

/-- Item separator `", "` of `json.dumps` (default separators). -/
def joinCommaSep : List (List Char) → List Char
  | [] => []
  | [x] => x
  | x :: xs => x ++ ',' :: ' ' :: joinCommaSep xs

mutual

/-- Recursively sort the entries of every dict by key (the order `sort_keys=True`
serialises them in). -/
def sortedPy : PyVal → PyVal
  | .str s => .str s
  | .int n => .int n
  | .bool b => .bool b
  | .null => .null
  | .list xs => .list (sortedPyList xs)
  | .dict kvs => .dict (sortDict (sortedPyDict kvs))

def sortedPyList : PyListV → PyListV
  | .nil => .nil
  | .cons x tl => .cons (sortedPy x) (sortedPyList tl)

def sortedPyDict : PyDictV → PyDictV
  | .nil => .nil
  | .cons k v tl => .cons k (sortedPy v) (sortedPyDict tl)

end

mutual

/-- Serialise a value whose dicts are already sorted (the Python default
separators `", "` and `": "`). -/
def dumpsVal : PyVal → List Char
  | .str s => jsonStr s
  | .int n => (toString n).data
  | .bool b => if b then "true".data else "false".data
  | .null => "null".data
  | .list xs => '[' :: joinCommaSep (dumpsList xs) ++ [']']
  | .dict kvs => '{' :: joinCommaSep (dumpsDict kvs) ++ ['}']

def dumpsList : PyListV → List (List Char)
  | .nil => []
  | .cons x tl => dumpsVal x :: dumpsList tl

def dumpsDict : PyDictV → List (List Char)
  | .nil => []
  | .cons k v tl => (jsonStr k ++ ':' :: ' ' :: dumpsVal v) :: dumpsDict tl

end

/-- Models `json.dumps(v, sort_keys=True)` with the Python default separators. -/
def jsonDumps (v : PyVal) : String := String.mk (dumpsVal (sortedPy v))

/-- Models `_normalize_part` from `src/generation.py` lines 52-58: mappings and
sequences are JSON-serialised with sorted keys (the `try` cannot fail for
the values representable here); anything else goes through `str()`. -/
def normalize_part : PyVal → String
  | .dict kvs => jsonDumps (.dict kvs)
  | .list xs => jsonDumps (.list xs)
  | .str s => s
  | .int n => toString n
  | .bool b => if b then "True" else "False"
  | .null => "None"

/-! MD5 (RFC 1321), needed because `_stable_seed` takes the first 12 hex
digits of `hashlib.md5(joined)`. Words are naturals kept below 2^32. -/

def mask32 (x : ℕ) : ℕ := x % 4294967296

def not32 (x : ℕ) : ℕ := Nat.xor x 4294967295

def rotl32 (x s : ℕ) : ℕ := mask32 (x * 2 ^ s) + x / 2 ^ (32 - s)

/-- Per-round left-rotation amounts. -/
def md5S : List ℕ :=
  [7, 12, 17, 22, 7, 12, 17, 22, 7, 12, 17, 22, 7, 12, 17, 22,
   5, 9, 14, 20, 5, 9, 14, 20, 5, 9, 14, 20, 5, 9, 14, 20,
   4, 11, 16, 23, 4, 11, 16, 23, 4, 11, 16, 23, 4, 11, 16, 23,
   6, 10, 15, 21, 6, 10, 15, 21, 6, 10, 15, 21, 6, 10, 15, 21]

/-- The sine-derived constants `⌊|sin(i+1)| · 2^32⌋`. -/
def md5K : List ℕ :=
  [0xd76aa478, 0xe8c7b756, 0x242070db, 0xc1bdceee,
   0xf57c0faf, 0x4787c62a, 0xa8304613, 0xfd469501,
   0x698098d8, 0x8b44f7af, 0xffff5bb1, 0x895cd7be,
   0x6b901122, 0xfd987193, 0xa679438e, 0x49b40821,
   0xf61e2562, 0xc040b340, 0x265e5a51, 0xe9b6c7aa,
   0xd62f105d, 0x02441453, 0xd8a1e681, 0xe7d3fbc8,
   0x21e1cde6, 0xc33707d6, 0xf4d50d87, 0x455a14ed,
   0xa9e3e905, 0xfcefa3f8, 0x676f02d9, 0x8d2a4c8a,
   0xfffa3942, 0x8771f681, 0x6d9d6122, 0xfde5380c,
   0xa4beea44, 0x4bdecfa9, 0xf6bb4b60, 0xbebfbc70,
   0x289b7ec6, 0xeaa127fa, 0xd4ef3085, 0x04881d05,
   0xd9d4d039, 0xe6db99e5, 0x1fa27cf8, 0xc4ac5665,
   0xf4292244, 0x432aff97, 0xab9423a7, 0xfc93a039,
   0x655b59c3, 0x8f0ccc92, 0xffeff47d, 0x85845dd1,
   0x6fa87e4f, 0xfe2ce6e0, 0xa3014314, 0x4e0811a1,
   0xf7537e82, 0xbd3af235, 0x2ad7d2bb, 0xeb86d391]

/-- Little-endian 32-bit word `i` of a 64-byte block. -/
def md5Word (block : List ℕ) (i : ℕ) : ℕ :=
  block.getD (4 * i) 0 + 256 * block.getD (4 * i + 1) 0 +
    65536 * block.getD (4 * i + 2) 0 + 16777216 * block.getD (4 * i + 3) 0

def md5Round (block : List ℕ) (st : ℕ × ℕ × ℕ × ℕ) (i : ℕ) : ℕ × ℕ × ℕ × ℕ :=
  let (a, b, c, d) := st
  let fg : ℕ × ℕ :=
    if i < 16 then (Nat.lor (Nat.land b c) (Nat.land (not32 b) d), i)
    else if i < 32 then (Nat.lor (Nat.land d b) (Nat.land (not32 d) c), (5 * i + 1) % 16)
    else if i < 48 then (Nat.xor b (Nat.xor c d), (3 * i + 5) % 16)
    else (Nat.xor c (Nat.lor b (not32 d)), (7 * i) % 16)
  let f := mask32 (fg.1 + a + md5K.getD i 0 + md5Word block fg.2)
  (d, mask32 (b + rotl32 f (md5S.getD i 0)), b, c)

def md5Block (st : ℕ × ℕ × ℕ × ℕ) (block : List ℕ) : ℕ × ℕ × ℕ × ℕ :=
  let r := (List.range 64).foldl (md5Round block) st
  (mask32 (st.1 + r.1), mask32 (st.2.1 + r.2.1), mask32 (st.2.2.1 + r.2.2.1),
   mask32 (st.2.2.2 + r.2.2.2))

/-- Consume the (already padded) byte stream in 64-byte blocks. -/
def md5Chunks (st : ℕ × ℕ × ℕ × ℕ) (buf : List ℕ) : List ℕ → ℕ × ℕ × ℕ × ℕ
  | [] => st
  | byte :: rest =>
    let buf2 := buf ++ [byte]
    if buf2.length = 64 then md5Chunks (md5Block st buf2) [] rest
    else md5Chunks st buf2 rest

/-- MD5 padding: `0x80`, zeros to 56 mod 64, 8-byte little-endian bit length. -/
def md5Pad (msg : List ℕ) : List ℕ :=
  let len := msg.length
  msg ++ 128 :: List.replicate ((119 - len % 64) % 64) 0 ++
    (List.range 8).map (fun i => 8 * len % 18446744073709551616 / 2 ^ (8 * i) % 256)

def wordLEBytes (w : ℕ) : List ℕ :=
  [w % 256, w / 256 % 256, w / 65536 % 256, w / 16777216 % 256]

def md5Bytes (msg : List ℕ) : List ℕ :=
  let r := md5Chunks (0x67452301, 0xefcdab89, 0x98badcfe, 0x10325476) [] (md5Pad msg)
  wordLEBytes r.1 ++ wordLEBytes r.2.1 ++ wordLEBytes r.2.2.1 ++ wordLEBytes r.2.2.2

def byteHex (b : ℕ) : List Char := [hexDigit (b / 16), hexDigit (b % 16)]

/-- Models `hashlib.md5(bytes).hexdigest()` as a character list. -/
def md5Hexdigest (msg : List ℕ) : List Char := ((md5Bytes msg).map byteHex).flatten

/-- UTF-8 encoding of one character (`str.encode("utf-8")`). -/
def utf8Bytes (c : Char) : List ℕ :=
  let n := c.toNat
  if n < 128 then [n]
  else if n < 2048 then [192 + n / 64, 128 + n % 64]
  else if n < 65536 then [224 + n / 4096, 128 + n / 64 % 64, 128 + n % 64]
  else [240 + n / 262144, 128 + n / 4096 % 64, 128 + n / 64 % 64, 128 + n % 64]

def strBytes (s : String) : List ℕ := (s.data.map utf8Bytes).flatten

def hexVal (c : Char) : ℕ := if c.toNat ≤ 57 then c.toNat - 48 else c.toNat - 87

def hexToNat (l : List Char) : ℕ := l.foldl (fun acc c => 16 * acc + hexVal c) 0

/-- Models `int(hashlib.md5(joined.encode("utf-8")).hexdigest()[:12], 16)`. -/
def md5Seed (joined : String) : ℕ := hexToNat ((md5Hexdigest (strBytes joined)).take 12)

/-- The `"|".join(...)` of `_stable_seed` (`src/generation.py` line 62):
`None` parts are skipped, the rest are canonicalised. -/
def stable_joined (parts : List (Option PyVal)) : String :=
  pyJoin "|" ((parts.filterMap id).map normalize_part)

/-- Models `_stable_seed` from `src/generation.py` lines 61-64. -/
def stable_seed (parts : List (Option PyVal)) : ℕ := md5Seed (stable_joined parts)

/-- The seed expression of `generate_script` (`src/generation.py` line 87). -/
def generate_script_seed (expert_id : Option String) (criteria : List (String × PyVal))
    (length_minutes : Int) (tone depth refine_text : String) : ℕ :=
  stable_seed [expert_id.map .str, some (pyDict criteria), some (.int length_minutes),
    some (.str tone), some (.str depth), some (.str refine_text)]

/-- The seed expression of `generate_transcript` (`src/generation.py`
lines 197-204). -/
def generate_transcript_seed (expert_id : Option String) (criteria : List (String × PyVal))
    (script_text tone depth refine_text : String) : ℕ :=
  stable_seed [expert_id.map .str, some (pyDict criteria), some (.str script_text),
    some (.str tone), some (.str depth), some (.str refine_text)]

/-- The seed expression of `summarize_interview` (`src/generation.py`
line 278).  `today` models `str(datetime.utcnow().date())` — the current
UTC date in ISO form, read from the clock rather than from the call
arguments, and folded into the seed as a fifth part. -/
def summarize_interview_seed (expert_id : Option String) (criteria : List (String × PyVal))
    (script_text transcript_text : String) (today : String) : ℕ :=
  stable_seed [expert_id.map .str, some (pyDict criteria), some (.str script_text),
    some (.str transcript_text), some (.str today)]

/-! ### `_extract_metrics` (`src/generation.py` lines 264-274) -/

/-- The optional decimal group `(?:\.\d+)?` matched against the rest of the
input: it consumes a `.` only when at least one digit follows. -/
def decTail (l : List Char) : List Char :=
  match l with
  | c :: rest =>
    if c = '.' then
      let ds := rest.takeWhile Char.isDigit
      if ds.isEmpty then [] else '.' :: ds
    else []
  | [] => []

/-- The optional suffix group `(%|x|k|m)?` matched against the rest. -/
def sufHead (l : List Char) : List Char :=
  match l with
  | c :: _ => if c = '%' ∨ c = 'x' ∨ c = 'k' ∨ c = 'm' then [c] else []
  | [] => []

/-- One attempt of the regex `(\d{1,3}(?:\.\d+)?)(%|x|k|m)?` at the head of
`l`: the characters of `group(0)`, or `none` when the pattern cannot match
here.  `\d{1,3}` is greedy but capped at three digits; neither optional
group forces backtracking into it. -/
def metricMatch (l : List Char) : Option (List Char) :=
  match l with
  | [] => none
  | c :: _ =>
    if c.isDigit then
      let d1 := (l.takeWhile Char.isDigit).take 3
      let dec := decTail (l.drop d1.length)
      let suf := sufHead (l.drop (d1.length + dec.length))
      some (d1 ++ dec ++ suf)
    else none

/-- Models `re.finditer` scan: at each position try the pattern; on a match emit
`(start, group(0))` and resume right after it, otherwise advance one
character.  `fuel` bounds the number of steps; each step consumes at least
one character, so `fuel := length` runs the scan to completion. -/
def scanMetrics : ℕ → List Char → ℕ → List (ℕ × List Char)
  | 0, _, _ => []
  | _ + 1, [], _ => []
  | fuel + 1, c :: rest, pos =>
    match metricMatch (c :: rest) with
    | some v => (pos, v) :: scanMetrics fuel ((c :: rest).drop v.length) (pos + v.length)
    | none => scanMetrics fuel rest (pos + 1)

/-- Python `str.strip()` whitespace test. -/
def pyIsSpace (c : Char) : Bool :=
  c = ' ' || c = '\t' || c = '\n' || c = '\r' || c.toNat = 11 || c.toNat = 12

def pyStrip (s : String) : String :=
  String.mk (((s.data.dropWhile pyIsSpace).reverse.dropWhile pyIsSpace).reverse)

/-- Models `transcript_text[max(0, start-40) : min(len, end+40)].replace("\n", " ").strip()`. -/
def metricContext (chars : List Char) (mstart mend : ℕ) : String :=
  let start := mstart - 40
  let stop := min chars.length (mend + 40)
  pyStrip (String.mk (((chars.drop start).take (stop - start)).map
    (fun c => if c = '\n' then ' ' else c)))

/-- One `{"value": .., "context": ..}` entry. -/
structure Metric where
  value : String
  context : String
deriving DecidableEq, Repr

/-- Models `_extract_metrics` from `src/generation.py` lines 264-274. -/
def extract_metrics (transcript_text : String) : List Metric :=
  if transcript_text = "" then []
  else
    (scanMetrics transcript_text.data.length transcript_text.data 0).map
      (fun pv => { value := String.mk pv.2,
                   context := metricContext transcript_text.data pv.1 (pv.1 + pv.2.length) })

/-! ### Comparison definitions taken from the wording of the spec -/

/-- Modelled from the spec claim on the credential signal, which asks for a
"substring-independent token match (a whole-token match, not a match inside
a longer word)": the token must equal one of the maximal alphanumeric runs
of the blob.  The source instead uses Python substring containment; this
definition exists to compare the two. -/
def cred_hit_whole_token (t blob : String) : Bool :=
  (alnumRuns blob.data).contains t.data

/-! ### Concrete inputs used by counterexamples and witnesses -/

/-- Criteria whose only free-text token is `art`. -/
def c6crit : Criteria := { free_text := "art" }

/-- Expert whose credential blob is the single word `startup`; `art` occurs
in it only inside the longer word. -/
def c6exp : Expert := { credentials := { education := ["Startup"] } }

/-- Criteria with a positive fractional budget of 1/2. -/
def c7crit : Criteria := { levels := ["VP"], budget := some (1 / 2) }

/-- Expert priced at exactly twice the budget of `c7crit`. -/
def c7exp : Expert := { roleLevel := "VP", ratePerHour := 1 }

/-! ## Theorems -/

/-- Every token produced by `tokenize` has length greater than 2. -/
theorem mem_tokenize_length {s t : String} (h : t ∈ tokenize s) : 2 < t.length := by
  unfold tokenize at h
  split at h
  · simp at h
  · have h2 := (List.mem_filter.mp h).2
    simp only [Bool.and_eq_true, decide_eq_true_eq] at h2
    exact h2.2

/-- A member of the free-text token set is a token of the free text. -/
theorem mem_free_tokens_length {c : Criteria} {t : String}
    (h : t ∈ free_tokens c) : 2 < t.length :=
  mem_tokenize_length (List.mem_dedup.mp h)

/-- No nonempty string is a substring of the empty string. -/
theorem isSubstr_empty_eq_false {t : String} (ht : t.data ≠ []) :
    isSubstr t "" = false := by
  unfold isSubstr occursIn
  cases h : t.data with
  | nil => exact absurd h ht
  | cons a l => simp [List.isEmpty]

/-- Clearing the credentials of an expert empties the flattened blob. -/
theorem flatten_credentials_cleared (e : Expert) :
    flatten_credentials { e with credentials := {} } = "" := rfl

/-- With cleared credentials no free-text token can hit the blob. -/
theorem cred_hits_cleared (c : Criteria) (e : Expert) :
    cred_hits c { e with credentials := {} } = [] := by
  unfold cred_hits
  rw [List.filter_eq_nil_iff]
  intro t htmem
  have hlen : 2 < t.length := mem_free_tokens_length htmem
  have hne : t.data ≠ [] := by
    intro hd
    rw [show t.length = t.data.length from rfl, hd] at hlen
    simp at hlen
  rw [flatten_credentials_cleared, isSubstr_empty_eq_false hne]
  simp

/-- Claim C3: Score bounds: for every criteria mapping and every candidate
mapping, `score_expert` returns a score `s` with `0 ≤ s ≤ 100`, clamped
and rounded to one decimal place (the result is an integer multiple of
1/10). -/
theorem score_bounds (c : Criteria) (e : Expert) :
    0 ≤ (score_expert c e).1 ∧ (score_expert c e).1 ≤ 100 ∧
      ∃ k : ℤ, (score_expert c e).1 = (k : ℚ) / 10 := by
  refine ⟨le_max_left 0 _, max_le (by norm_num) (min_le_left _ _), ?_⟩
  show ∃ k : ℤ, max 0 (min 100 (round1 (score_expert_raw c e))) = (k : ℚ) / 10
  rw [round1]
  set n : ℤ := roundHalfEven (10 * score_expert_raw c e) with hn
  rcases le_or_lt ((n : ℚ) / 10) 0 with h1 | h1
  · refine ⟨0, ?_⟩
    rw [min_eq_right (le_trans h1 (by norm_num)), max_eq_left h1]
    norm_num
  · rcases le_or_lt 100 ((n : ℚ) / 10) with h2 | h2
    · refine ⟨1000, ?_⟩
      rw [min_eq_left h2, max_eq_right (by norm_num : (0 : ℚ) ≤ 100)]
      norm_num
    · exact ⟨n, by rw [min_eq_right h2.le, max_eq_right h1.le]⟩

/-- Claim C5: Mismatch asymmetry: with a non-empty industry constraint and no
overlap the industry block contributes a flat −12 (equivalently, the whole
raw score drops by exactly 12 against the same request without the industry
constraint); with an empty industry constraint the industry component is 0;
with a non-empty function constraint and no overlap the function block
contributes exactly 0 and the raw score equals that of the same request
without the function constraint. -/
theorem mismatch_asymmetry (c : Criteria) (e : Expert) :
    (c.industries.dedup ≠ [] → industry_overlap c e = [] →
      industry_part c e = -12 ∧
      score_expert_raw c e = score_expert_raw { c with industries := [] } e - 12) ∧
    (c.industries.dedup = [] → industry_part c e = 0) ∧
    (c.functions.dedup ≠ [] → function_overlap c e = [] →
      function_part c e = 0 ∧
      score_expert_raw c e = score_expert_raw { c with functions := [] } e) := by
  refine ⟨fun h1 h2 => ?_, fun h => ?_, fun h1 h2 => ?_⟩
  · have hip : industry_part c e = -12 := by
      unfold industry_part
      rw [if_pos h1, h2]
      norm_num
    have hip0 : industry_part { c with industries := [] } e = 0 := by
      unfold industry_part
      simp
    refine ⟨hip, ?_⟩
    have hf : function_part { c with industries := [] } e = function_part c e := rfl
    have hl : level_part { c with industries := [] } e = level_part c e := rfl
    have hk : keyword_part { c with industries := [] } e = keyword_part c e := rfl
    have hcr : cred_part { c with industries := [] } e = cred_part c e := rfl
    have hp : profile_part { c with industries := [] } e = profile_part c e := rfl
    have hr : rate_penalty { c with industries := [] } e = rate_penalty c e := rfl
    unfold score_expert_raw
    rw [hip, hip0, hf, hl, hk, hcr, hp, hr]
    ring
  · unfold industry_part
    rw [if_neg (by simp [h])]
  · have hfp : function_part c e = 0 := by
      unfold function_part
      rw [if_pos h1, h2]
      norm_num
    have hfp0 : function_part { c with functions := [] } e = 0 := by
      unfold function_part
      simp
    refine ⟨hfp, ?_⟩
    have hi : industry_part { c with functions := [] } e = industry_part c e := rfl
    have hl : level_part { c with functions := [] } e = level_part c e := rfl
    have hk : keyword_part { c with functions := [] } e = keyword_part c e := rfl
    have hcr : cred_part { c with functions := [] } e = cred_part c e := rfl
    have hp : profile_part { c with functions := [] } e = profile_part c e := rfl
    have hr : rate_penalty { c with functions := [] } e = rate_penalty c e := rfl
    unfold score_expert_raw
    rw [hfp, hfp0, hi, hl, hk, hcr, hp, hr]

/-- Witness for C5 at concrete pairs: an industry mismatch costs −12, an
empty industry constraint contributes 0, and a function mismatch is free. -/
theorem mismatch_asymmetry_witness :
    (industry_part { industries := ["Retail"] } {} = -12 ∧
      score_expert_raw { industries := ["Retail"] } {} =
        score_expert_raw { ({ industries := ["Retail"] } : Criteria) with industries := [] } {} - 12) ∧
    industry_part ({} : Criteria) {} = 0 ∧
    (function_part { functions := ["Ops"] } {} = 0 ∧
      score_expert_raw { functions := ["Ops"] } {} =
        score_expert_raw { ({ functions := ["Ops"] } : Criteria) with functions := [] } {}) :=
  ⟨mismatch_asymmetry _ _ |>.1 (by decide) (by decide),
   mismatch_asymmetry {} {} |>.2.1 (by decide),
   mismatch_asymmetry _ _ |>.2.2 (by decide) (by decide)⟩

/-- Claim C6 counterexample: The claim reads the credential signal as a
whole-token match; the code fires on any substring: the only free token
`art` is not a whole token of the blob `startup`, yet the +10 is granted
and the final score is 10 rather than the claimed 0. -/
theorem credential_substring_counterexample :
    free_tokens c6crit = ["art"] ∧
    flatten_credentials c6exp = "startup" ∧
    cred_hit_whole_token "art" (flatten_credentials c6exp) = false ∧
    cred_part c6crit c6exp = 10 ∧
    (score_expert c6crit c6exp).1 = 10 := by
  refine ⟨by decide, by decide, by decide, by decide, ?_⟩
  with_unfolding_all decide

/-- Claim C6 as amended: the +10 fires exactly when some free-text token occurs
as a substring of the flattened lower-cased credential blob (matches inside
longer words included), and the contribution is a flat +10 — the raw score
exceeds that of the same expert with cleared credentials by exactly 10,
however many tokens hit. -/
theorem credential_signal_amended (c : Criteria) (e : Expert) :
    (cred_hits c e ≠ [] →
      score_expert_raw c e = score_expert_raw c { e with credentials := {} } + 10) ∧
    (cred_hits c e = [] →
      score_expert_raw c e = score_expert_raw c { e with credentials := {} }) ∧
    (cred_hits c e ≠ [] ↔ ∃ t ∈ free_tokens c, isSubstr t (flatten_credentials e) = true) := by
  have hi : industry_part c { e with credentials := {} } = industry_part c e := rfl
  have hf : function_part c { e with credentials := {} } = function_part c e := rfl
  have hl : level_part c { e with credentials := {} } = level_part c e := rfl
  have hk : keyword_part c { e with credentials := {} } = keyword_part c e := rfl
  have hp : profile_part c { e with credentials := {} } = profile_part c e := rfl
  have hr : rate_penalty c { e with credentials := {} } = rate_penalty c e := rfl
  have hc0 : cred_part c { e with credentials := {} } = 0 := by
    unfold cred_part
    rw [cred_hits_cleared]
    simp
  refine ⟨fun h => ?_, fun h => ?_, ?_⟩
  · have hc : cred_part c e = 10 := by unfold cred_part; rw [if_pos h]
    unfold score_expert_raw
    rw [hi, hf, hl, hk, hp, hr, hc, hc0]
    ring
  · have hc : cred_part c e = 0 := by unfold cred_part; rw [if_neg (by simp [h])]
    unfold score_expert_raw
    rw [hi, hf, hl, hk, hp, hr, hc, hc0]
  · unfold cred_hits
    rw [Ne, List.filter_eq_nil_iff]
    push_neg
    simp

/-- Witness for C6 as amended, at the counterexample pair: the +10 is a
flat bonus over the cleared-credentials score. -/
theorem credential_signal_witness :
    score_expert_raw c6crit c6exp =
      score_expert_raw c6crit { c6exp with credentials := {} } + 10 :=
  credential_signal_amended c6crit c6exp |>.1 (by decide)

/-- Claim C7 counterexample: The claim promises the full −10 penalty at twice
any positive budget, but with budget 1/2 (a positive value below the
`max(1, budget)` guard) an expert at exactly twice the budget is docked
only 5, and the final score is 5 rather than the claimed 0. -/
theorem budget_penalty_counterexample :
    c7crit.budget = some (1 / 2 : ℚ) ∧
    c7exp.ratePerHour = 2 * (1 / 2 : ℚ) ∧
    rate_penalty c7crit c7exp = 5 ∧
    rate_penalty c7crit c7exp ≠ 10 ∧
    (score_expert c7crit c7exp).1 = 5 := by
  refine ⟨rfl, ?_, ?_, ?_, ?_⟩
  all_goals with_unfolding_all decide

/-- Claim C7 as amended: a candidate priced at or under the stated budget incurs
no rate penalty (for any budget value), and for budgets of at least 1 —
where the `max(1, budget)` guard is inert — a candidate priced at exactly
twice the budget incurs exactly the maximum −10 penalty. -/
theorem budget_penalty_amended (c : Criteria) (e : Expert) (b : ℚ)
    (hb : c.budget = some b) :
    (e.ratePerHour ≤ b → rate_penalty c e = 0) ∧
    (1 ≤ b → e.ratePerHour = 2 * b → rate_penalty c e = 10) := by
  constructor
  · intro h
    by_cases hb0 : b = 0
    · have heff : effectiveBudget c = 500 := by
        unfold effectiveBudget
        rw [hb]
        show (if b = 0 then (500 : ℚ) else b) = 500
        rw [if_pos hb0]
      unfold rate_penalty
      rw [heff, if_neg (not_lt.mpr (le_trans h (by rw [hb0]; norm_num)))]
    · have heff : effectiveBudget c = b := by
        unfold effectiveBudget
        rw [hb]
        show (if b = 0 then (500 : ℚ) else b) = b
        rw [if_neg hb0]
      unfold rate_penalty
      rw [heff, if_neg (not_lt.mpr h)]
  · intro h1 h2
    have hb0 : b ≠ 0 := by intro h; rw [h] at h1; norm_num at h1
    have heff : effectiveBudget c = b := by
      unfold effectiveBudget
      rw [hb]
      show (if b = 0 then (500 : ℚ) else b) = b
      rw [if_neg hb0]
    have hpos : (0 : ℚ) < b := lt_of_lt_of_le one_pos h1
    unfold rate_penalty
    rw [heff, h2, if_pos (by linarith)]
    rw [max_eq_right h1]
    have hdiff : 2 * b - b = b := by ring
    rw [hdiff, div_self hb0, min_self]
    norm_num

/-- Witness for C7 as amended at budget 300: rate 300 is penalty-free and
rate 600 draws exactly −10. -/
theorem budget_penalty_witness :
    rate_penalty { budget := some 300 } { ratePerHour := 300 } = 0 ∧
    rate_penalty { budget := some 300 } { ratePerHour := 600 } = 10 :=
  ⟨budget_penalty_amended { budget := some 300 } { ratePerHour := 300 } 300 rfl
      |>.1 (by norm_num),
   budget_penalty_amended { budget := some 300 } { ratePerHour := 600 } 300 rfl
      |>.2 (by norm_num) (by norm_num)⟩

/-- Claim C8: Implicit budget defaulting: a missing (`None`) or zero budget is
replaced by the 500 ceiling — `score_expert` behaves exactly as if the
budget were 500 — and in particular a candidate at 400/hr incurs no rate
penalty under a stated budget of 0. -/
theorem budget_default (c : Criteria) (e : Expert)
    (h : c.budget = none ∨ c.budget = some 0) :
    score_expert c e = score_expert { c with budget := some 500 } e ∧
    (e.ratePerHour = 400 → rate_penalty c e = 0) := by
  have heff : effectiveBudget c = 500 := by
    rcases h with h | h <;> unfold effectiveBudget <;> rw [h] <;> simp
  have heff2 : effectiveBudget { c with budget := some 500 } = 500 := by
    unfold effectiveBudget
    norm_num
  constructor
  · have hrate : rate_penalty c e = rate_penalty { c with budget := some 500 } e := by
      unfold rate_penalty
      rw [heff, heff2]
    have hraw : score_expert_raw c e = score_expert_raw { c with budget := some 500 } e := by
      unfold score_expert_raw
      rw [hrate]
      rfl
    have hreasons : score_expert_reasons c e =
        score_expert_reasons { c with budget := some 500 } e := by
      unfold score_expert_reasons
      rw [heff, heff2]
      rfl
    unfold score_expert
    rw [hraw, hreasons]
  · intro h400
    unfold rate_penalty
    rw [heff, h400, if_neg (by norm_num)]

/-- Witness for C8: with a stated budget of 0 the scorer matches the
budget-500 scorer, and an expert at 400/hr pays no rate penalty. -/
theorem budget_default_witness :
    score_expert { budget := some 0 } { ratePerHour := 400 } =
      score_expert { ({ budget := some 0 } : Criteria) with budget := some 500 }
        { ratePerHour := 400 } ∧
    rate_penalty { budget := some 0 } { ratePerHour := 400 } = 0 :=
  ⟨budget_default { budget := some 0 } { ratePerHour := 400 } (Or.inr rfl) |>.1,
   budget_default { budget := some 0 } { ratePerHour := 400 } (Or.inr rfl) |>.2 rfl⟩

/-! Properties of the stable descending sort. -/

theorem insertDesc_perm (x : RankEntry) (l : List RankEntry) :
    (insertDesc x l).Perm (x :: l) := by
  induction l with
  | nil => exact List.Perm.refl _
  | cons y ys ih =>
    unfold insertDesc
    by_cases h : y.score ≤ x.score
    · rw [if_pos h]
    · rw [if_neg h]
      exact (ih.cons y).trans (List.Perm.swap x y ys)

theorem sortDesc_perm (l : List RankEntry) : (sortDesc l).Perm l := by
  induction l with
  | nil => exact List.Perm.refl _
  | cons x xs ih => exact (insertDesc_perm x (sortDesc xs)).trans (ih.cons x)

theorem insertDesc_sorted (x : RankEntry) {l : List RankEntry}
    (hl : l.Pairwise (fun a b => b.score ≤ a.score)) :
    (insertDesc x l).Pairwise (fun a b => b.score ≤ a.score) := by
  induction l with
  | nil => simp [insertDesc]
  | cons y ys ih =>
    rcases List.pairwise_cons.mp hl with ⟨hy, hys⟩
    unfold insertDesc
    by_cases h : y.score ≤ x.score
    · rw [if_pos h]
      refine List.pairwise_cons.mpr ⟨?_, hl⟩
      intro z hz
      rcases List.mem_cons.mp hz with rfl | hz
      · exact h
      · exact le_trans (hy z hz) h
    · rw [if_neg h]
      refine List.pairwise_cons.mpr ⟨?_, ih hys⟩
      intro z hz
      rcases List.mem_cons.mp ((insertDesc_perm x ys).mem_iff.mp hz) with rfl | hz2
      · exact (not_le.mp h).le
      · exact hy z hz2

theorem sortDesc_sorted (l : List RankEntry) :
    (sortDesc l).Pairwise (fun a b => b.score ≤ a.score) := by
  induction l with
  | nil => simp [sortDesc]
  | cons x xs ih => exact insertDesc_sorted x ih

/-- Inserting into a sorted tail never reorders entries of any fixed score:
the insertion point lies before every entry scoring no more than `x`. -/
theorem insertDesc_filter (x : RankEntry) {l : List RankEntry}
    (hl : l.Pairwise (fun a b => b.score ≤ a.score)) (s : ℚ) :
    (insertDesc x l).filter (fun r => decide (r.score = s)) =
      (x :: l).filter (fun r => decide (r.score = s)) := by
  induction l with
  | nil => rfl
  | cons y ys ih =>
    rcases List.pairwise_cons.mp hl with ⟨hy, hys⟩
    unfold insertDesc
    by_cases h : y.score ≤ x.score
    · rw [if_pos h]
    · rw [if_neg h]
      have hlt : x.score < y.score := not_le.mp h
      by_cases hx : x.score = s <;> by_cases hy2 : y.score = s
      · exact absurd (hx.trans hy2.symm) (ne_of_lt hlt)
      · simp [List.filter_cons, ih hys, hx, hy2]
      · simp [List.filter_cons, ih hys, hx, hy2]
      · simp [List.filter_cons, ih hys, hx, hy2]

theorem sortDesc_filter (l : List RankEntry) (s : ℚ) :
    (sortDesc l).filter (fun r => decide (r.score = s)) =
      l.filter (fun r => decide (r.score = s)) := by
  induction l with
  | nil => rfl
  | cons x xs ih =>
    show (insertDesc x (sortDesc xs)).filter _ = _
    rw [insertDesc_filter x (sortDesc_sorted xs) s, List.filter_cons, List.filter_cons, ih]

/-- Claim C4: Ranking totality and order: `rank_experts` and
`_synthesize_recommendations` each return exactly one entry per candidate
of the input pool (a permutation — nobody dropped, nobody duplicated),
sorted by score in descending order, and a candidate absent from the base
ranking is looked up with base score 0 rather than being omitted. -/
theorem ranking_totality (c : Criteria) (experts : List Expert) (ranked : List RankEntry)
    (agencies : List AgencyResponse) (recent : List HistoryTags) :
    ((rank_experts c experts).map (fun r => r.expert)).Perm experts ∧
    (rank_experts c experts).Pairwise (fun a b => b.score ≤ a.score) ∧
    ((synthesize_recommendations c experts ranked agencies recent).map
      (fun r => r.expert)).Perm experts ∧
    (synthesize_recommendations c experts ranked agencies recent).Pairwise
      (fun a b => b.score ≤ a.score) ∧
    (∀ id : String, (∀ r ∈ ranked, r.expert.id ≠ id) → base_score ranked id = 0) := by
  refine ⟨?_, sortDesc_sorted _, ?_, sortDesc_sorted _, ?_⟩
  · have h1 := (sortDesc_perm (experts.map (score_entry c))).map (fun r => r.expert)
    have h2 : (experts.map (score_entry c)).map (fun r => r.expert) = experts := by
      rw [List.map_map]
      show experts.map (fun e => e) = experts
      simp
    rw [rank_experts]
    exact h1.trans (by rw [h2])
  · have h1 := (sortDesc_perm (experts.map (compile_entry ranked agencies recent))).map
      (fun r => r.expert)
    have h2 : (experts.map (compile_entry ranked agencies recent)).map
        (fun r => r.expert) = experts := by
      rw [List.map_map]
      show experts.map (fun e => e) = experts
      simp
    rw [synthesize_recommendations]
    exact h1.trans (by rw [h2])
  · intro id h
    unfold base_score
    rw [List.find?_eq_none.mpr ?_]
    intro r hr
    have hmem : r ∈ ranked := List.mem_reverse.mp hr
    simp [h r hmem]

/-- Witness for C4 on a tiny pool: a two-expert ranking is a permutation of
the pool, and an id absent from an empty base ranking scores base 0. -/
theorem ranking_totality_witness :
    ((rank_experts {} [{ id := "a" }, { id := "b" }]).map (fun r => r.expert)).Perm
      [{ id := "a" }, { id := "b" }] ∧
    base_score [] "a" = 0 :=
  ⟨ranking_totality {} [{ id := "a" }, { id := "b" }] [] [] [] |>.1,
   ranking_totality {} [] [] [] [] |>.2.2.2.2 "a" (by simp)⟩

/-- Claim C9: Implicit tie stability: both sorts are stable — for every score
value, the entries carrying that score appear in the output of
`rank_experts` and `_synthesize_recommendations` in exactly the order the
corresponding candidates had in the input pool. -/
theorem tie_stability (c : Criteria) (experts : List Expert) (ranked : List RankEntry)
    (agencies : List AgencyResponse) (recent : List HistoryTags) (s : ℚ) :
    (rank_experts c experts).filter (fun r => decide (r.score = s)) =
      (experts.map (score_entry c)).filter (fun r => decide (r.score = s)) ∧
    (synthesize_recommendations c experts ranked agencies recent).filter
        (fun r => decide (r.score = s)) =
      (experts.map (compile_entry ranked agencies recent)).filter
        (fun r => decide (r.score = s)) :=
  ⟨sortDesc_filter _ s, sortDesc_filter _ s⟩

/-! Injectivity of the `"|"` join on separator-free parts. -/

theorem pipe_data : ("|" : String).data = ['|'] := rfl

theorem takeWhile_append_stop {p : Char → Bool} {x : Char} :
    ∀ {a : List Char}, (∀ c ∈ a, p c = true) → p x = false →
      ∀ u, (a ++ x :: u).takeWhile p = a := by
  intro a
  induction a with
  | nil => intro _ hx u; simp [List.takeWhile_cons, hx]
  | cons c cs ih =>
    intro hall hx u
    have hc : p c = true := hall c (List.mem_cons_self c cs)
    simp only [List.cons_append, List.takeWhile_cons, hc]
    rw [ih (fun d hd => hall d (List.mem_cons_of_mem c hd)) hx u]
    simp

theorem append_pipe_inj {a b u v : List Char}
    (ha : ('|' : Char) ∉ a) (hb : ('|' : Char) ∉ b)
    (h : a ++ '|' :: u = b ++ '|' :: v) : a = b ∧ u = v := by
  have pa : ∀ c ∈ a, (c != '|') = true := by
    intro c hc
    simp only [bne_iff_ne, ne_eq]
    intro rfl2
    exact ha (rfl2 ▸ hc)
  have pb : ∀ c ∈ b, (c != '|') = true := by
    intro c hc
    simp only [bne_iff_ne, ne_eq]
    intro rfl2
    exact hb (rfl2 ▸ hc)
  have hpipe : (('|' : Char) != '|') = false := by simp
  have hta : (a ++ '|' :: u).takeWhile (fun c => c != '|') = a :=
    takeWhile_append_stop pa hpipe u
  have htb : (b ++ '|' :: v).takeWhile (fun c => c != '|') = b :=
    takeWhile_append_stop pb hpipe v
  have hab : a = b := by rw [← hta, ← htb, h]
  subst hab
  exact ⟨rfl, List.cons_injective (List.append_cancel_left h)⟩

theorem pyJoin_cons_data (s t : String) (l : List String) :
    (pyJoin "|" (s :: t :: l)).data = s.data ++ '|' :: (pyJoin "|" (t :: l)).data := by
  show (s ++ "|" ++ pyJoin "|" (t :: l)).data = _
  rw [String.data_append, String.data_append, pipe_data, List.append_assoc]
  rfl

theorem pipe_mem_pyJoin (t : String) (t2 : String) (l : List String) :
    ('|' : Char) ∈ (pyJoin "|" (t :: t2 :: l)).data := by
  rw [pyJoin_cons_data]
  exact List.mem_append_right _ (List.mem_cons_self _ _)

/-- The join with `"|"` is injective on nonempty lists of parts none of
which contains the separator character. -/
theorem pyJoin_pipe_inj :
    ∀ (l1 l2 : List String), l1 ≠ [] → l2 ≠ [] →
      (∀ s ∈ l1, ('|' : Char) ∉ s.data) → (∀ s ∈ l2, ('|' : Char) ∉ s.data) →
      pyJoin "|" l1 = pyJoin "|" l2 → l1 = l2 := by
  intro l1
  induction l1 with
  | nil => intro l2 h1 _ _ _ _; exact absurd rfl h1
  | cons s t1 ih =>
    intro l2 _ h2 hp1 hp2 heq
    match t1, l2 with
    | _, [] => exact absurd rfl h2
    | [], [t] =>
      have : s = t := by
        have : pyJoin "|" [s] = pyJoin "|" [t] := heq
        exact this
      rw [this]
    | [], t :: t2 :: l2t =>
      exfalso
      have hmem : ('|' : Char) ∈ (pyJoin "|" [s]).data := by
        rw [heq]
        exact pipe_mem_pyJoin t t2 l2t
      exact hp1 s (List.mem_cons_self s []) hmem
    | s2 :: t1t, [t] =>
      exfalso
      have hmem : ('|' : Char) ∈ (pyJoin "|" [t]).data := by
        rw [← heq]
        exact pipe_mem_pyJoin s s2 t1t
      exact hp2 t (List.mem_cons_self t []) hmem
    | s2 :: t1t, t :: t2 :: l2t =>
      have hdata : (pyJoin "|" (s :: s2 :: t1t)).data = (pyJoin "|" (t :: t2 :: l2t)).data :=
        congrArg String.data heq
      rw [pyJoin_cons_data, pyJoin_cons_data] at hdata
      have hsplit := append_pipe_inj
        (hp1 s (List.mem_cons_self s _)) (hp2 t (List.mem_cons_self t _)) hdata
      have hst : s = t := by
        cases s; cases t
        exact congrArg String.mk hsplit.1
      have hjoins : pyJoin "|" (s2 :: t1t) = pyJoin "|" (t2 :: l2t) := by
        cases hj1 : pyJoin "|" (s2 :: t1t)
        cases hj2 : pyJoin "|" (t2 :: l2t)
        have := hsplit.2
        rw [hj1, hj2] at this
        exact congrArg String.mk this
      have htails := ih (t2 :: l2t) (by simp) (by simp)
        (fun x hx => hp1 x (List.mem_cons_of_mem s hx))
        (fun x hx => hp2 x (List.mem_cons_of_mem t hx)) hjoins
      rw [hst, htails]

/-- Claim C2 counterexample: `_stable_seed` joins canonical strings with a bare
`"|"` and no escaping, so a single part containing the separator collides
with the same text split into two parts: the canonical sequences differ but
the joined strings — and hence the seeds — coincide. -/
theorem seed_join_collision_counterexample :
    normalize_part (.str "a|b") = "a|b" ∧
    [normalize_part (.str "a|b")] ≠ [normalize_part (.str "a"), normalize_part (.str "b")] ∧
    stable_joined [some (.str "a|b")] = stable_joined [some (.str "a"), some (.str "b")] ∧
    stable_seed [some (.str "a|b")] = stable_seed [some (.str "a"), some (.str "b")] := by
  refine ⟨rfl, by decide, by decide, ?_⟩
  show md5Seed (stable_joined [some (.str "a|b")]) =
    md5Seed (stable_joined [some (.str "a"), some (.str "b")])
  exact congrArg md5Seed (by decide)

/-- Claim C2 as amended: when no canonical part string contains the separator
`|` (and at least one part is present on each side), the joined string
determines the sequence of canonical strings — differently-split inputs
cannot produce the same joined string.  Without that restriction the claim
fails, as parts may contain `|` (see the counterexample). -/
theorem seed_join_injective (p1 p2 : List (Option PyVal))
    (hne1 : (p1.filterMap id).map normalize_part ≠ [])
    (hne2 : (p2.filterMap id).map normalize_part ≠ [])
    (hp1 : ∀ s ∈ (p1.filterMap id).map normalize_part, ('|' : Char) ∉ s.data)
    (hp2 : ∀ s ∈ (p2.filterMap id).map normalize_part, ('|' : Char) ∉ s.data)
    (heq : stable_joined p1 = stable_joined p2) :
    (p1.filterMap id).map normalize_part = (p2.filterMap id).map normalize_part :=
  pyJoin_pipe_inj _ _ hne1 hne2 hp1 hp2 heq

/-- Witness for C2 as amended: two separator-free part lists with equal
joins have equal canonical sequences. -/
theorem seed_join_injective_witness :
    ([some (.str "x"), none, some (.int 5)].filterMap id).map normalize_part =
      ([some (.str "x"), some (.str "5")].filterMap id).map normalize_part :=
  seed_join_injective [some (.str "x"), none, some (.int 5)]
    [some (.str "x"), some (.str "5")]
    (by decide) (by decide)
    (by intro s hs; fin_cases hs <;> decide)
    (by intro s hs; fin_cases hs <;> decide)
    (by decide)

/-! The code-point order on char lists is reflexive, total, antisymmetric
and transitive; hence the key sort of `json.dumps(..., sort_keys=True)`
yields the same entry list for any two dicts that are equal as mappings. -/

theorem str_data_inj {a b : String} (h : a.data = b.data) : a = b := by
  cases a
  cases b
  cases h
  rfl

theorem charsLe_refl (a : List Char) : charsLe a a = true := by
  induction a with
  | nil => rfl
  | cons c cs ih =>
    unfold charsLe
    simp [ih]

theorem charsLe_cons (x y : Char) (xs ys : List Char) :
    charsLe (x :: xs) (y :: ys) =
      if x.toNat < y.toNat then true
      else if y.toNat < x.toNat then false
      else charsLe xs ys := rfl

theorem charsLe_cons_iff {x y : Char} {xs ys : List Char} :
    charsLe (x :: xs) (y :: ys) = true ↔
      x.toNat < y.toNat ∨ (x.toNat = y.toNat ∧ charsLe xs ys = true) := by
  rw [charsLe_cons]
  split_ifs with h1 h2
  · simp [h1]
  · have hne : x.toNat ≠ y.toNat := by omega
    simp [h1, h2, hne]
  · have heq : x.toNat = y.toNat := by omega
    simp [h1, heq]

theorem charsLe_total (a : List Char) : ∀ b, charsLe a b = true ∨ charsLe b a = true := by
  induction a with
  | nil => intro b; left; rfl
  | cons c cs ih =>
    intro b
    cases b with
    | nil => right; rfl
    | cons d ds =>
      rw [charsLe_cons_iff, charsLe_cons_iff]
      rcases Nat.lt_trichotomy c.toNat d.toNat with h | h | h
      · exact Or.inl (Or.inl h)
      · rcases ih ds with hr | hr
        · exact Or.inl (Or.inr ⟨h, hr⟩)
        · exact Or.inr (Or.inr ⟨h.symm, hr⟩)
      · exact Or.inr (Or.inl h)

theorem charsLe_antisymm : ∀ {a b : List Char},
    charsLe a b = true → charsLe b a = true → a = b := by
  intro a
  induction a with
  | nil =>
    intro b _ h2
    cases b with
    | nil => rfl
    | cons d ds => simp [charsLe] at h2
  | cons c cs ih =>
    intro b h1 h2
    cases b with
    | nil => simp [charsLe] at h1
    | cons d ds =>
      rw [charsLe_cons_iff] at h1 h2
      rcases h1 with h1 | ⟨h1e, h1r⟩
      · rcases h2 with h2 | ⟨h2e, _⟩
        · omega
        · omega
      · rcases h2 with h2 | ⟨_, h2r⟩
        · omega
        · have hcd : c = d := by
            have := congrArg Char.ofNat h1e
            rwa [Char.ofNat_toNat, Char.ofNat_toNat] at this
          rw [hcd, ih h1r h2r]

theorem charsLe_trans : ∀ (a b c : List Char),
    charsLe a b = true → charsLe b c = true → charsLe a c = true := by
  intro a
  induction a with
  | nil => intro b c _ _; rfl
  | cons x xs ih =>
    intro b c h1 h2
    cases b with
    | nil => simp [charsLe] at h1
    | cons y ys =>
      cases c with
      | nil => simp [charsLe] at h2
      | cons z zs =>
        rw [charsLe_cons_iff] at h1 h2 ⊢
        rcases h1 with h1 | ⟨h1e, h1r⟩ <;> rcases h2 with h2 | ⟨h2e, h2r⟩
        · exact Or.inl (Nat.lt_trans h1 h2)
        · exact Or.inl (h2e ▸ h1)
        · exact Or.inl (h1e ▸ h2)
        · exact Or.inr ⟨h1e.trans h2e, ih ys zs h1r h2r⟩

theorem insertBy_perm {α : Type} (le : α → α → Bool) (x : α) (l : List α) :
    (insertBy le x l).Perm (x :: l) := by
  induction l with
  | nil => exact List.Perm.refl _
  | cons y ys ih =>
    unfold insertBy
    by_cases h : le x y
    · rw [if_pos h]
    · rw [if_neg h]
      exact (ih.cons y).trans (List.Perm.swap x y ys)

theorem isort_perm {α : Type} (le : α → α → Bool) (l : List α) :
    (isort le l).Perm l := by
  induction l with
  | nil => exact List.Perm.refl _
  | cons x xs ih => exact (insertBy_perm le x (isort le xs)).trans (ih.cons x)

theorem insertBy_sorted {α : Type} (le : α → α → Bool)
    (htot : ∀ a b, le a b = true ∨ le b a = true)
    (htr : ∀ a b c, le a b = true → le b c = true → le a c = true)
    (x : α) {l : List α} (hl : l.Pairwise (fun a b => le a b = true)) :
    (insertBy le x l).Pairwise (fun a b => le a b = true) := by
  induction l with
  | nil => simp [insertBy]
  | cons y ys ih =>
    rcases List.pairwise_cons.mp hl with ⟨hy, hys⟩
    unfold insertBy
    by_cases h : le x y
    · rw [if_pos h]
      refine List.pairwise_cons.mpr ⟨?_, hl⟩
      intro z hz
      rcases List.mem_cons.mp hz with rfl | hz
      · exact h
      · exact htr x y z h (hy z hz)
    · rw [if_neg h]
      refine List.pairwise_cons.mpr ⟨?_, ih hys⟩
      intro z hz
      rcases List.mem_cons.mp ((insertBy_perm le x ys).mem_iff.mp hz) with rfl | hz2
      · rcases htot y z with ht | ht
        · exact ht
        · exact absurd ht h
      · exact hy z hz2

theorem isort_sorted {α : Type} (le : α → α → Bool)
    (htot : ∀ a b, le a b = true ∨ le b a = true)
    (htr : ∀ a b c, le a b = true → le b c = true → le a c = true)
    (l : List α) : (isort le l).Pairwise (fun a b => le a b = true) := by
  induction l with
  | nil => simp [isort]
  | cons x xs ih => exact insertBy_sorted le htot htr x ih

/-- Two sorted entry lists that are permutations of each other and have
no duplicated keys are equal. -/
theorem sortedPairs_perm_eq :
    ∀ (l1 l2 : List (String × PyVal)), l1.Perm l2 →
      l1.Pairwise (fun a b => pairLe a b = true) →
      l2.Pairwise (fun a b => pairLe a b = true) →
      (l1.map Prod.fst).Nodup → l1 = l2 := by
  intro l1
  induction l1 with
  | nil =>
    intro l2 hp _ _ _
    exact hp.nil_eq
  | cons x t1 ih =>
    intro l2 hp hs1 hs2 hnd
    cases l2 with
    | nil => exact absurd hp.symm.nil_eq (by simp)
    | cons y t2 =>
      rcases List.pairwise_cons.mp hs1 with ⟨hx1, hs1t⟩
      rcases List.pairwise_cons.mp hs2 with ⟨hy2, hs2t⟩
      have hy_mem : y ∈ x :: t1 := hp.symm.subset (List.mem_cons_self y t2)
      have hx_mem : x ∈ y :: t2 := hp.subset (List.mem_cons_self x t1)
      have hxy : pairLe x y = true := by
        rcases List.mem_cons.mp hy_mem with h | h
        · rw [h]; exact charsLe_refl _
        · exact hx1 y h
      have hyx : pairLe y x = true := by
        rcases List.mem_cons.mp hx_mem with h | h
        · rw [h]; exact charsLe_refl _
        · exact hy2 x h
      have hkey : x.1 = y.1 := str_data_inj (charsLe_antisymm hxy hyx)
      have hxy_eq : x = y := by
        rcases List.mem_cons.mp hx_mem with h | h
        · exact h
        · exfalso
          have hmem2 : x.1 ∈ t2.map Prod.fst := List.mem_map_of_mem Prod.fst h
          have hnd2 : ((y :: t2).map Prod.fst).Nodup := (hp.map Prod.fst).nodup hnd
          rw [List.map_cons] at hnd2
          rcases List.nodup_cons.mp hnd2 with ⟨hyn, _⟩
          exact hyn (hkey ▸ hmem2)
      subst hxy_eq
      have htp : t1.Perm t2 := hp.cons_inv
      have hndt : (t1.map Prod.fst).Nodup := by
        rw [List.map_cons] at hnd
        exact (List.nodup_cons.mp hnd).2
      rw [ih t2 htp hs1t hs2t hndt]

/-- The key sort is invariant under permuting entries with distinct keys. -/
theorem sortPairs_perm_inv {l1 l2 : List (String × PyVal)} (hp : l1.Perm l2)
    (hnd : (l1.map Prod.fst).Nodup) : sortPairs l1 = sortPairs l2 := by
  have htot : ∀ a b : String × PyVal, pairLe a b = true ∨ pairLe b a = true :=
    fun a b => charsLe_total _ _
  have htr : ∀ a b c : String × PyVal,
      pairLe a b = true → pairLe b c = true → pairLe a c = true :=
    fun a b c => charsLe_trans _ _ _
  apply sortedPairs_perm_eq
  · exact (isort_perm _ l1).trans (hp.trans (isort_perm _ l2).symm)
  · exact isort_sorted pairLe htot htr l1
  · exact isort_sorted pairLe htot htr l2
  · exact (((isort_perm pairLe l1).map Prod.fst).symm).nodup hnd

theorem sortedPyDict_toPairs (kvs : List (String × PyVal)) :
    (sortedPyDict (pairsToDict kvs)).toPairs =
      kvs.map (fun kv => (kv.1, sortedPy kv.2)) := by
  induction kvs with
  | nil => rfl
  | cons kv t ih =>
    show (kv.1, sortedPy kv.2) :: (sortedPyDict (pairsToDict t)).toPairs = _
    rw [ih]
    rfl

/-- Models `json.dumps(..., sort_keys=True)` produces the same text for two dicts
that hold the same entries (distinct keys) in different orders. -/
theorem jsonDumps_dict_perm (kvs1 kvs2 : List (String × PyVal)) (hp : kvs1.Perm kvs2)
    (hnd : (kvs1.map Prod.fst).Nodup) :
    jsonDumps (pyDict kvs1) = jsonDumps (pyDict kvs2) := by
  show String.mk (dumpsVal (.dict (sortDict (sortedPyDict (pairsToDict kvs1))))) = _
  have h1 : sortDict (sortedPyDict (pairsToDict kvs1)) =
      sortDict (sortedPyDict (pairsToDict kvs2)) := by
    unfold sortDict
    rw [sortedPyDict_toPairs, sortedPyDict_toPairs]
    congr 1
    apply sortPairs_perm_inv (hp.map _)
    have hkeys : (kvs1.map (fun kv => (kv.1, sortedPy kv.2))).map Prod.fst =
        kvs1.map Prod.fst := by
      rw [List.map_map]
      rfl
    rw [hkeys]
    exact hnd
  rw [h1]
  rfl

theorem normalize_dict_perm (kvs1 kvs2 : List (String × PyVal)) (hp : kvs1.Perm kvs2)
    (hnd : (kvs1.map Prod.fst).Nodup) :
    normalize_part (pyDict kvs1) = normalize_part (pyDict kvs2) := by
  show jsonDumps (pyDict kvs1) = jsonDumps (pyDict kvs2)
  exact jsonDumps_dict_perm _ _ hp hnd

/-- Models `_stable_seed` only sees the canonical string of each non-`None` part. -/
theorem stable_seed_congr {p1 p2 : List (Option PyVal)}
    (h : p1.map (Option.map normalize_part) = p2.map (Option.map normalize_part)) :
    stable_seed p1 = stable_seed p2 := by
  unfold stable_seed stable_joined
  congr 1
  congr 1
  rw [List.map_filterMap, List.map_filterMap]
  have e1 : p1.filterMap (fun a => (id a).map normalize_part) =
      (p1.map (Option.map normalize_part)).filterMap id := by
    rw [List.filterMap_map]
    rfl
  have e2 : p2.filterMap (fun a => (id a).map normalize_part) =
      (p2.map (Option.map normalize_part)).filterMap id := by
    rw [List.filterMap_map]
    rfl
  rw [e1, e2, h]

/-- Claim C1 counterexample: `summarize_interview` folds the current UTC date
into its seed: with all call arguments identical, running on 2025-01-01 and
on 2025-01-02 (for instance, the same process restarted the next day)
yields different seeds — so the summary is not byte-identical across
invocations, as the computed 48-bit values show. -/
theorem summarize_seed_date_counterexample :
    summarize_interview_seed (some "e1") [] "s" "t" "2025-01-01" = 97987572912567 ∧
    summarize_interview_seed (some "e1") [] "s" "t" "2025-01-02" = 69700366056011 ∧
    summarize_interview_seed (some "e1") [] "s" "t" "2025-01-01" ≠
      summarize_interview_seed (some "e1") [] "s" "t" "2025-01-02" := by
  refine ⟨by decide, by decide, by decide⟩

/-- Claim C1 as amended: `_stable_seed` and the seed derivations of
`generate_script` and `generate_transcript` are deterministic functions of
the call arguments alone — in particular two representations of the same
criteria mapping (same entries with distinct keys, any order) yield
identical seeds, hence identical pseudo-random draw sequences and
byte-identical text; `summarize_interview` is deterministic only given the
additional current-UTC-date input it reads from the clock, so its output is
reproducible within a day but not across process restarts on different
dates. -/
theorem generation_determinism (kvs1 kvs2 : List (String × PyVal))
    (hperm : kvs1.Perm kvs2) (hkeys : (kvs1.map Prod.fst).Nodup)
    (eid : Option String) (length_minutes : Int)
    (tone depth refine_text script_text transcript_text today : String) :
    generate_script_seed eid kvs1 length_minutes tone depth refine_text =
      generate_script_seed eid kvs2 length_minutes tone depth refine_text ∧
    generate_transcript_seed eid kvs1 script_text tone depth refine_text =
      generate_transcript_seed eid kvs2 script_text tone depth refine_text ∧
    summarize_interview_seed eid kvs1 script_text transcript_text today =
      summarize_interview_seed eid kvs2 script_text transcript_text today := by
  have hn : normalize_part (pyDict kvs1) = normalize_part (pyDict kvs2) :=
    normalize_dict_perm _ _ hperm hkeys
  refine ⟨?_, ?_, ?_⟩ <;>
  · apply stable_seed_congr
    simp [hn]

/-- Witness for C1 as amended: reordering the two criteria entries leaves
all three generator seeds unchanged. -/
theorem generation_determinism_witness :
    generate_script_seed (some "e1") [("a", .int 1), ("b", .str "x")] 30 "Friendly" "Deep" "" =
      generate_script_seed (some "e1") [("b", .str "x"), ("a", .int 1)] 30 "Friendly" "Deep" "" ∧
    summarize_interview_seed (some "e1") [("a", .int 1), ("b", .str "x")] "s" "t" "2025-01-01" =
      summarize_interview_seed (some "e1") [("b", .str "x"), ("a", .int 1)] "s" "t" "2025-01-01" :=
  ⟨generation_determinism [("a", .int 1), ("b", .str "x")] [("b", .str "x"), ("a", .int 1)]
      (List.Perm.swap ("b", PyVal.str "x") ("a", PyVal.int 1) [])
      (by simp) (some "e1") 30 "Friendly" "Deep" "" "s" "t" "2025-01-01" |>.1,
   generation_determinism [("a", .int 1), ("b", .str "x")] [("b", .str "x"), ("a", .int 1)]
      (List.Perm.swap ("b", PyVal.str "x") ("a", PyVal.int 1) [])
      (by simp) (some "e1") 30 "Friendly" "Deep" "" "s" "t" "2025-01-01" |>.2.2⟩

/-! Facts about the metrics scanner. -/

theorem takeWhile_append_all {p : Char → Bool} :
    ∀ {a b : List Char}, (∀ c ∈ a, p c = true) →
      (a ++ b).takeWhile p = a ++ b.takeWhile p := by
  intro a
  induction a with
  | nil => intro b _; rfl
  | cons c cs ih =>
    intro b hall
    have hc : p c = true := hall c (List.mem_cons_self c cs)
    simp only [List.cons_append, List.takeWhile_cons, hc, if_true]
    rw [ih (fun d hd => hall d (List.mem_cons_of_mem c hd))]

theorem metricMatch_none_of_not_digit {c : Char} {rest : List Char}
    (h : ¬c.isDigit = true) : metricMatch (c :: rest) = none := by
  simp only [metricMatch]
  rw [if_neg h]

theorem metricMatch_isSome_of_digit {c : Char} (rest : List Char)
    (h : c.isDigit = true) : ∃ v, metricMatch (c :: rest) = some v := by
  simp only [metricMatch]
  rw [if_pos h]
  exact ⟨_, rfl⟩

theorem decTail_shape (l : List Char) :
    decTail l = [] ∨ ∃ ds, decTail l = '.' :: ds := by
  cases l with
  | nil => exact Or.inl rfl
  | cons c rest =>
    simp only [decTail]
    by_cases h : c = '.'
    · rw [if_pos h]
      by_cases hds : (rest.takeWhile Char.isDigit).isEmpty
      · rw [if_pos hds]
        exact Or.inl rfl
      · rw [if_neg hds]
        exact Or.inr ⟨_, rfl⟩
    · rw [if_neg h]
      exact Or.inl rfl

theorem sufHead_shape (l : List Char) :
    sufHead l = [] ∨ ∃ c2, sufHead l = [c2] ∧ c2.isDigit = false := by
  cases l with
  | nil => exact Or.inl rfl
  | cons c rest =>
    simp only [sufHead]
    by_cases h : c = '%' ∨ c = 'x' ∨ c = 'k' ∨ c = 'm'
    · rw [if_pos h]
      refine Or.inr ⟨c, rfl, ?_⟩
      rcases h with rfl | rfl | rfl | rfl <;> decide
    · rw [if_neg h]
      exact Or.inl rfl

/-- Whatever follows the digit group in a match never starts with a digit. -/
theorem tail_takeWhile_nil (l1 l2 : List Char) :
    (decTail l1 ++ sufHead l2).takeWhile Char.isDigit = [] := by
  have hdot : ('.' : Char).isDigit = false := by decide
  rcases decTail_shape l1 with h | ⟨ds, h⟩
  · rw [h, List.nil_append]
    rcases sufHead_shape l2 with h2 | ⟨c2, h2, hd⟩
    · rw [h2]
      rfl
    · rw [h2]
      simp [List.takeWhile_cons, hd]
  · rw [h]
    simp [List.takeWhile_cons, hdot]

/-- Every matched value starts with 1–3 digits followed by a non-digit
remainder: at most three digits stand before the optional decimal part,
and the match is nonempty. -/
theorem metricMatch_digit_bound {l v : List Char} (h : metricMatch l = some v) :
    (v.takeWhile Char.isDigit).length ≤ 3 ∧ 0 < v.length := by
  cases l with
  | nil => simp [metricMatch] at h
  | cons c rest =>
    by_cases hc : c.isDigit = true
    swap
    · rw [metricMatch_none_of_not_digit hc] at h
      cases h
    simp only [metricMatch] at h
    rw [if_pos hc] at h
    have hv := (Option.some.inj h).symm
    subst hv
    have htw : (c :: rest).takeWhile Char.isDigit = c :: rest.takeWhile Char.isDigit := by
      simp [List.takeWhile_cons, hc]
    set d1 := ((c :: rest).takeWhile Char.isDigit).take 3 with hd1
    have hd1cons : d1 = c :: (rest.takeWhile Char.isDigit).take 2 := by
      rw [hd1, htw]
      rfl
    have hd1all : ∀ x ∈ d1, x.isDigit = true := by
      intro x hx
      rw [hd1cons] at hx
      rcases List.mem_cons.mp hx with rfl | hx2
      · exact hc
      · exact List.mem_takeWhile_imp (List.take_subset 2 _ hx2)
    have hd1len : d1.length ≤ 3 := by
      rw [hd1, List.length_take]
      exact min_le_left _ _
    have hd1pos : 0 < d1.length := by
      rw [hd1cons]
      simp
    constructor
    · rw [List.append_assoc, takeWhile_append_all hd1all, tail_takeWhile_nil,
        List.append_nil]
      exact hd1len
    · rw [List.append_assoc, List.length_append]
      omega

/-- Every value emitted by the scan satisfies the per-match digit bound. -/
theorem scanMetrics_digit_bound : ∀ (fuel : ℕ) (l : List Char) (pos : ℕ)
    (pv : ℕ × List Char), pv ∈ scanMetrics fuel l pos →
    (pv.2.takeWhile Char.isDigit).length ≤ 3 ∧ 0 < pv.2.length := by
  intro fuel
  induction fuel with
  | zero =>
    intro l pos pv h
    simp [scanMetrics] at h
  | succ n ih =>
    intro l pos pv h
    cases l with
    | nil => simp [scanMetrics] at h
    | cons c rest =>
      cases hm : metricMatch (c :: rest) with
      | none =>
        rw [scanMetrics, hm] at h
        exact ih rest (pos + 1) pv h
      | some v =>
        rw [scanMetrics, hm] at h
        rcases List.mem_cons.mp h with rfl | h2
        · exact metricMatch_digit_bound hm
        · exact ih _ _ pv h2

/-- Every digit of the text is covered by some emitted match: no 1–3 digit
number can be skipped, suffix or not. -/
theorem scanMetrics_coverage : ∀ (fuel : ℕ) (l : List Char) (pos i : ℕ),
    l.length ≤ fuel → ∀ (h : i < l.length), (l.get ⟨i, h⟩).isDigit = true →
    ∃ pv ∈ scanMetrics fuel l pos, pv.1 ≤ pos + i ∧ pos + i < pv.1 + pv.2.length := by
  intro fuel
  induction fuel with
  | zero =>
    intro l pos i hf h _
    omega
  | succ n ih =>
    intro l pos i hf h hd
    cases l with
    | nil => simp at h
    | cons c rest =>
      cases hm : metricMatch (c :: rest) with
      | none =>
        have hc : ¬c.isDigit = true := by
          intro hcc
          obtain ⟨v, hv⟩ := metricMatch_isSome_of_digit rest hcc
          rw [hv] at hm
          cases hm
        cases i with
        | zero => exact absurd hd hc
        | succ j =>
          have hj : j < rest.length := by
            simp only [List.length_cons] at h
            omega
          have hdj : (rest.get ⟨j, hj⟩).isDigit = true := by
            simpa [List.get_cons_succ] using hd
          have hfl : rest.length ≤ n := by
            simp only [List.length_cons] at hf
            omega
          obtain ⟨pv, hmem, h1, h2⟩ := ih rest (pos + 1) j hfl hj hdj
          refine ⟨pv, ?_, by omega, by omega⟩
          rw [scanMetrics, hm]
          exact hmem
      | some v =>
        have hvpos : 0 < v.length := (metricMatch_digit_bound hm).2
        by_cases hiv : i < v.length
        · refine ⟨(pos, v), ?_, ?_, ?_⟩
          · rw [scanMetrics, hm]
            exact List.mem_cons_self _ _
          · show pos ≤ pos + i
            omega
          · show pos + i < pos + v.length
            omega
        · push_neg at hiv
          obtain ⟨j, rfl⟩ := Nat.exists_eq_add_of_le hiv
          have hdrop_len : ((c :: rest).drop v.length).length =
              (c :: rest).length - v.length := List.length_drop _ _
          have hj : j < ((c :: rest).drop v.length).length := by
            rw [hdrop_len]
            omega
          have hget : ((c :: rest).drop v.length).get ⟨j, hj⟩ =
              (c :: rest).get ⟨v.length + j, h⟩ := by
            rw [List.get_eq_getElem, List.get_eq_getElem, List.getElem_drop]
          have hfl : ((c :: rest).drop v.length).length ≤ n := by
            rw [hdrop_len]
            simp only [List.length_cons] at hf ⊢
            omega
          obtain ⟨pv, hmem, h1, h2⟩ :=
            ih _ (pos + v.length) j hfl hj (by rw [hget]; exact hd)
          refine ⟨pv, ?_, by omega, by omega⟩
          rw [scanMetrics, hm]
          exact List.mem_cons_of_mem _ hmem

/-- Emitted start positions never fall below the running position. -/
theorem scanMetrics_pos_lb : ∀ (fuel : ℕ) (l : List Char) (pos : ℕ)
    (pv : ℕ × List Char), pv ∈ scanMetrics fuel l pos → pos ≤ pv.1 := by
  intro fuel
  induction fuel with
  | zero =>
    intro l pos pv h
    simp [scanMetrics] at h
  | succ n ih =>
    intro l pos pv h
    cases l with
    | nil => simp [scanMetrics] at h
    | cons c rest =>
      cases hm : metricMatch (c :: rest) with
      | none =>
        rw [scanMetrics, hm] at h
        have := ih rest (pos + 1) pv h
        omega
      | some v =>
        rw [scanMetrics, hm] at h
        rcases List.mem_cons.mp h with rfl | h2
        · exact le_refl _
        · have := ih _ _ pv h2
          have hvpos : 0 < v.length := (metricMatch_digit_bound hm).2
          omega

/-- The emitted matches appear in strictly increasing text order. -/
theorem scanMetrics_mono : ∀ (fuel : ℕ) (l : List Char) (pos : ℕ),
    (scanMetrics fuel l pos).Pairwise (fun a b => a.1 < b.1) := by
  intro fuel
  induction fuel with
  | zero =>
    intro l pos
    simp [scanMetrics]
  | succ n ih =>
    intro l pos
    cases l with
    | nil => simp [scanMetrics]
    | cons c rest =>
      cases hm : metricMatch (c :: rest) with
      | none =>
        rw [scanMetrics, hm]
        exact ih rest (pos + 1)
      | some v =>
        rw [scanMetrics, hm]
        refine List.pairwise_cons.mpr ⟨?_, ih _ _⟩
        intro pv hpv
        have hlb := scanMetrics_pos_lb n _ (pos + v.length) pv hpv
        have hvpos : 0 < v.length := (metricMatch_digit_bound hm).2
        omega

/-- Claim C10: Metrics-extraction digit limit: each extracted value carries at
most 3 digits before its optional decimal part; every digit of the
transcript is covered by some extracted entry (so 1–3 digit numbers are
always captured, suffix or not, and a longer digit run is split across
several entries); the scan is an order-preserving pure function of the
transcript text, with entry start positions strictly increasing; and the
4-digit run `2024` is reported as the two values `202` and `4`. -/
theorem metrics_extraction (s : String) :
    (∀ m ∈ extract_metrics s, (m.value.data.takeWhile Char.isDigit).length ≤ 3) ∧
    (∀ (i : ℕ) (h : i < s.data.length), (s.data.get ⟨i, h⟩).isDigit = true →
      ∃ pv ∈ scanMetrics s.data.length s.data 0,
        pv.1 ≤ i ∧ i < pv.1 + pv.2.length) ∧
    (scanMetrics s.data.length s.data 0).Pairwise (fun a b => a.1 < b.1) ∧
    (s ≠ "" → extract_metrics s = (scanMetrics s.data.length s.data 0).map
      (fun pv => { value := String.mk pv.2,
                   context := metricContext s.data pv.1 (pv.1 + pv.2.length) })) ∧
    (extract_metrics "2024").map (fun m => m.value) = ["202", "4"] := by
  refine ⟨?_, ?_, scanMetrics_mono _ _ _, ?_, by decide⟩
  · intro m hm
    unfold extract_metrics at hm
    split at hm
    · simp at hm
    · obtain ⟨pv, hpv, rfl⟩ := List.mem_map.mp hm
      exact (scanMetrics_digit_bound _ _ _ pv hpv).1
  · intro i h hd
    simpa using scanMetrics_coverage s.data.length s.data 0 i (le_refl _) h hd
  · intro hs
    unfold extract_metrics
    rw [if_neg hs]

/-- Witness for C10: in `a7b` the digit at position 1 is covered by an
extracted entry, and `2024` splits into `202` and `4`. -/
theorem metrics_extraction_witness :
    (∃ pv ∈ scanMetrics ("a7b" : String).data.length ("a7b" : String).data 0,
      pv.1 ≤ 1 ∧ 1 < pv.1 + pv.2.length) ∧
    (extract_metrics "2024").map (fun m => m.value) = ["202", "4"] :=
  ⟨(metrics_extraction "a7b").2.1 1 (by decide) (by decide),
   (metrics_extraction "2024").2.2.2.2⟩

end ET
